import Mathlib

/-!
Verification of the multi-channel command/response test harness
(`scripts/test_all.py` and `scripts/test_hid.py`).

Strings are modelled as lists of Unicode scalar values (`List Nat`), byte
buffers as lists of byte values (`List Nat`).  Python's
`str.encode('utf-8')` and `bytes.decode('utf-8', errors='ignore')` are
modelled by `utf8Encode` and `utf8DecodeIgnore`; `str.strip()` by
`pyStrip`; `str.split('\n')` by `List.splitOn 10`.
-/

namespace CompositeDeviceTest

/-- `HID_PACKET_SIZE = 64` from the source configuration constants. -/
def HID_PACKET_SIZE : Nat := 64

/-- `HID_PROTOCOL_HEADER_SIZE = 3` from the source configuration constants. -/
def HID_PROTOCOL_HEADER_SIZE : Nat := 3

/-- `HID_MAX_COMMAND_LENGTH = 61` from the source configuration constants. -/
def HID_MAX_COMMAND_LENGTH : Nat := 61

/-- `MAX_IDLE_POLLS = 10` from the source configuration constants. -/
def MAX_IDLE_POLLS : Nat := 10

/-- Model of Python's `str.isspace` / default `str.strip` whitespace set:
the code points removed by `str.strip()` with no argument. -/
def isPySpace (c : Nat) : Bool :=
  (9 ≤ c && c ≤ 13) || (28 ≤ c && c ≤ 32) || c == 0x85 || c == 0xA0 ||
  c == 0x1680 || (0x2000 ≤ c && c ≤ 0x200A) || c == 0x2028 || c == 0x2029 ||
  c == 0x202F || c == 0x205F || c == 0x3000

/-- Model of Python `str.strip()`: drop leading and trailing whitespace. -/
def pyStrip (s : List Nat) : List Nat :=
  ((s.dropWhile isPySpace).reverse.dropWhile isPySpace).reverse

/-- A Unicode scalar value: what a Python `str` character is (surrogates
excluded, as they are not encodable to UTF-8). -/
def ValidScalar (n : Nat) : Prop :=
  n < 0x110000 ∧ ¬(0xD800 ≤ n ∧ n < 0xE000)

instance : DecidablePred ValidScalar := fun n => by
  unfold ValidScalar; infer_instance

/-- Every character of the string is a Unicode scalar value. -/
def ValidStr (s : List Nat) : Prop := ∀ c ∈ s, ValidScalar c

instance : DecidablePred ValidStr := fun s => by
  unfold ValidStr; infer_instance

/-- UTF-8 encoding of one Unicode scalar value (model of CPython's
per-character UTF-8 encoder). -/
def utf8EncodeChar (n : Nat) : List Nat :=
  if n < 0x80 then [n]
  else if n < 0x800 then [0xC0 + n / 64, 0x80 + n % 64]
  else if n < 0x10000 then
    [0xE0 + n / 4096, 0x80 + (n / 64) % 64, 0x80 + n % 64]
  else
    [0xF0 + n / 0x40000, 0x80 + (n / 4096) % 64, 0x80 + (n / 64) % 64,
     0x80 + n % 64]

/-- Model of Python `str.encode('utf-8')` on a list of scalar values. -/
def utf8Encode (s : List Nat) : List Nat := (s.map utf8EncodeChar).flatten

/-- Whether a byte is a UTF-8 continuation byte (`0x80..0xBF`). -/
def IsCont (b : Nat) : Prop := 0x80 ≤ b ∧ b ≤ 0xBF

instance : DecidablePred IsCont := fun b => by
  unfold IsCont; infer_instance

/-- Valid range for the second byte of a three-byte sequence headed by `b`
(CPython rejects overlong encodings and surrogates). -/
def IsSnd3 (b b1 : Nat) : Prop :=
  if b = 0xE0 then 0xA0 ≤ b1 ∧ b1 ≤ 0xBF
  else if b = 0xED then 0x80 ≤ b1 ∧ b1 ≤ 0x9F
  else IsCont b1

instance (b b1 : Nat) : Decidable (IsSnd3 b b1) := by
  unfold IsSnd3; unfold IsCont; infer_instance

/-- Valid range for the second byte of a four-byte sequence headed by `b`. -/
def IsSnd4 (b b1 : Nat) : Prop :=
  if b = 0xF0 then 0x90 ≤ b1 ∧ b1 ≤ 0xBF
  else if b = 0xF4 then 0x80 ≤ b1 ∧ b1 ≤ 0x8F
  else IsCont b1

instance (b b1 : Nat) : Decidable (IsSnd4 b b1) := by
  unfold IsSnd4; unfold IsCont; infer_instance

/-- One step of UTF-8 decoding: given the current byte `b` and the bytes
after it, return the decoded scalar together with the number of extra bytes
consumed on success, or `none` (skip `b`, the ignore policy) on an invalid
or incomplete sequence. -/
def utf8Step (b : Nat) (rest : List Nat) : Option Nat × Nat :=
  if b < 0x80 then (some b, 0)
  else if 0xC2 ≤ b ∧ b ≤ 0xDF then
    match rest with
    | b1 :: _ =>
      if IsCont b1 then (some ((b - 0xC0) * 64 + (b1 - 0x80)), 1)
      else (none, 0)
    | [] => (none, 0)
  else if 0xE0 ≤ b ∧ b ≤ 0xEF then
    match rest with
    | b1 :: b2 :: _ =>
      if IsSnd3 b b1 ∧ IsCont b2 then
        (some ((b - 0xE0) * 4096 + (b1 - 0x80) * 64 + (b2 - 0x80)), 2)
      else (none, 0)
    | _ => (none, 0)
  else if 0xF0 ≤ b ∧ b ≤ 0xF4 then
    match rest with
    | b1 :: b2 :: b3 :: _ =>
      if IsSnd4 b b1 ∧ IsCont b2 ∧ IsCont b3 then
        (some ((b - 0xF0) * 0x40000 + (b1 - 0x80) * 4096 +
          (b2 - 0x80) * 64 + (b3 - 0x80)), 3)
      else (none, 0)
    | _ => (none, 0)
  else (none, 0)

/-- Fuel-indexed decode loop; the fuel only serves termination and is
irrelevant once it is at least the list length (`decodeGo_fuel`). -/
def decodeGo : Nat → List Nat → List Nat
  | _, [] => []
  | 0, _ :: _ => []
  | fuel + 1, b :: rest =>
    match utf8Step b rest with
    | (some cp, k) => cp :: decodeGo fuel (rest.drop k)
    | (none, _) => decodeGo fuel rest

/-- Model of Python `bytes.decode('utf-8', errors='ignore')`: decode valid
UTF-8 sequences, silently dropping invalid or incomplete byte runs. -/
def utf8DecodeIgnore (l : List Nat) : List Nat := decodeGo l.length l

/-- The longest prefix of a string whose UTF-8 encoding fits in `budget`
bytes (what ignore-decoding a byte-truncated encoding yields). -/
def fitPrefix (budget : Nat) : List Nat → List Nat
  | [] => []
  | c :: cs =>
    if (utf8EncodeChar c).length ≤ budget then
      c :: fitPrefix (budget - (utf8EncodeChar c).length) cs
    else []

/-- Embedding of `encode_hid_command` (`scripts/test_all.py` lines 221-234).
Builds the 65-byte pywinusb packet: report id `0`, marker `0xA1`, length,
reserved `0`, payload truncated to `HID_MAX_COMMAND_LENGTH`, zero padding. -/
def encode_hid_command (cmd : List Nat) : List Nat :=
  let cmdBytes := utf8Encode cmd
  let length := min cmdBytes.length HID_MAX_COMMAND_LENGTH
  [0, 0xA1, length, 0] ++ cmdBytes.take length ++
    List.replicate (HID_PACKET_SIZE - HID_PROTOCOL_HEADER_SIZE - length) 0

/-- Embedding of `decode_hid_response` (`scripts/test_all.py` lines 236-247,
identical guards in `scripts/test_hid.py` `decode_response_0xA1`).
Python's `errors='ignore'` decoding never raises, so the
`except UnicodeDecodeError` branch of the source is dead. -/
def decode_hid_response (data : List Nat) : Option (List Nat) :=
  if 5 ≤ data.length then
    if data.getD 1 0 = 0xA1 then
      let length := data.getD 2 0
      if 0 < length ∧ length ≤ HID_MAX_COMMAND_LENGTH then
        some (utf8DecodeIgnore ((data.drop 4).take length))
      else none
    else none
  else none

/-- Embedding of `is_scpi_command` (`scripts/test_all.py` lines 425-427):
`cmd.strip().startswith('*')`; `'*'` is code point 42. -/
def is_scpi_command (cmd : List Nat) : Bool :=
  match pyStrip cmd with
  | c :: _ => c == 42
  | [] => false

/-- One poll of the serial channel in `test_cdc_command`: either
`ser.in_waiting == 0` (no data) or one raw line returned by
`ser.readline()`. -/
inductive CdcPoll where
  | noData : CdcPoll
  | line (raw : List Nat) : CdcPoll
  deriving DecidableEq

/-- The response line the CDC loop keeps from one poll, if any:
`line = raw.decode('utf-8', errors='ignore').strip()`, kept when
`line and line != ">"` (`">"` is code point 62). -/
def cdcLineOf : CdcPoll → Option (List Nat)
  | CdcPoll.noData => none
  | CdcPoll.line raw =>
    let l := pyStrip (utf8DecodeIgnore raw)
    if l ≠ [] ∧ l ≠ [62] then some l else none

/-- All lines the CDC loop would keep from a poll sequence. -/
def cdcAllLines (polls : List CdcPoll) : List (List Nat) :=
  polls.filterMap cdcLineOf

/-- Embedding of the response-collection loop of `test_cdc_command`
(`scripts/test_all.py` lines 265-282).  The poll list stands for the polls
that fit in the `timeout_sec` window; the boolean result records whether
the loop exited through the early `break` (idle counter at
`MAX_IDLE_POLLS` with at least one response collected) rather than by
exhausting the timeout. -/
def cdcRun : List CdcPoll → List (List Nat) × Nat → List (List Nat) × Bool
  | [], (responses, _) => (responses, false)
  | CdcPoll.line raw :: ps, (responses, idle_count) =>
    let l := pyStrip (utf8DecodeIgnore raw)
    if l ≠ [] ∧ l ≠ [62] then cdcRun ps (responses ++ [l], 0)
    else cdcRun ps (responses, idle_count)
  | CdcPoll.noData :: ps, (responses, idle_count) =>
    if MAX_IDLE_POLLS ≤ idle_count + 1 ∧ responses ≠ [] then (responses, true)
    else cdcRun ps (responses, idle_count + 1)

/-- Lines contributed by one HID input report in `test_hid_command`:
`response = decode_hid_response(data)`, and when `response` is truthy,
`for line in response.split('\n'): if line.strip(): append(line.strip())`
(`'\n'` is code point 10). -/
def hidChunkLines (data : List Nat) : List (List Nat) :=
  match decode_hid_response data with
  | some r =>
    if r ≠ [] then ((r.splitOn 10).map pyStrip).filter (· ≠ []) else []
  | none => []

/-- Lines contributed by one poll of the HID loop (`current_data`, the
reports drained from the shared buffer in this iteration). -/
def hidPollLines (chunks : List (List Nat)) : List (List Nat) :=
  (chunks.map hidChunkLines).flatten

/-- All lines the HID loop would keep from a poll sequence. -/
def hidAllLines (polls : List (List (List Nat))) : List (List Nat) :=
  (polls.map hidPollLines).flatten

/-- Embedding of the response-collection loop of `test_hid_command`
(`scripts/test_all.py` lines 303-328).  Each element of the poll list is
the list of reports drained in one iteration (`current_data`); an empty
list is an idle poll.  The boolean records early `break` exit. -/
def hidRun : List (List (List Nat)) → List (List Nat) × Nat →
    List (List Nat) × Bool
  | [], (responses, _) => (responses, false)
  | chunks :: ps, (responses, idle_count) =>
    if chunks ≠ [] then hidRun ps (responses ++ hidPollLines chunks, 0)
    else if MAX_IDLE_POLLS ≤ idle_count + 1 ∧ responses ≠ [] then
      (responses, true)
    else hidRun ps (responses, idle_count + 1)

/-- Early-exit condition of the HID loop, as the spec words it: somewhere
within the poll window, `MAX_IDLE_POLLS` consecutive polls returned no
data after at least one response line had already been collected. -/
def HidEarly (polls : List (List (List Nat))) : Prop :=
  ∃ pre mid rest, polls = pre ++ mid ++ rest ∧
    hidAllLines pre ≠ [] ∧
    (∀ p ∈ mid, p = ([] : List (List Nat))) ∧
    mid.length = MAX_IDLE_POLLS

/-- Early-exit condition the CDC loop actually implements: after some
prefix that contributed at least one kept line, a stretch of polls yields
no kept line (no reset) while containing exactly `MAX_IDLE_POLLS` no-data
polls (each incrementing the idle counter); polls in the stretch that
return only blank or `>` lines neither reset nor increment the counter. -/
def CdcEarly (polls : List CdcPoll) : Prop :=
  ∃ pre mid rest, polls = pre ++ mid ++ rest ∧
    cdcAllLines pre ≠ [] ∧
    (∀ p ∈ mid, cdcLineOf p = none) ∧
    mid.countP (fun p => decide (p = CdcPoll.noData)) = MAX_IDLE_POLLS

/-- The consecutive-idle early-exit condition the claim states for every
collector: `MAX_IDLE_POLLS` consecutive no-data polls after at least one
collected line.  (This is what `HidEarly` amounts to; the CDC loop does
not satisfy it.) -/
def CdcConsecutiveIdle (polls : List CdcPoll) : Prop :=
  ∃ pre mid rest, polls = pre ++ mid ++ rest ∧
    cdcAllLines pre ≠ [] ∧
    (∀ p ∈ mid, p = CdcPoll.noData) ∧
    mid.length = MAX_IDLE_POLLS

/-- The concrete poll sequence refuting the consecutive-idle reading for
the CDC loop: one kept line, five idle polls, one bare-prompt line (which
does not reset the idle counter), five idle polls, one more idle poll. -/
def cePolls : List CdcPoll :=
  CdcPoll.line [120] :: (List.replicate 5 CdcPoll.noData ++
    (CdcPoll.line [62] :: (List.replicate 5 CdcPoll.noData ++
      [CdcPoll.noData])))

/-- Normalization applied by `compare_responses` when a channel's response
list is non-empty: `set(line.strip() for line in resp if line.strip())`. -/
def normSet (resp : List (List Nat)) : Finset (List Nat) :=
  ((resp.map pyStrip).filter (· ≠ [])).toFinset

/-- The entry a channel gets in `responses_dict`: present exactly when the
channel was tested (`resp is not None`) and returned a truthy (non-empty)
list. -/
def dictEntry (resp : Option (List (List Nat))) : Option (Finset (List Nat)) :=
  match resp with
  | some r => if r ≠ [] then some (normSet r) else none
  | none => none

/-- Python's `'X' in responses_dict and responses_dict['X']`: the channel
is in the dict and its normalized set is truthy (non-empty). -/
def channelActive (resp : Option (List (List Nat))) : Bool :=
  match dictEntry resp with
  | some s => decide (s ≠ ∅)
  | none => false

/-- Well-formedness of a collected response list: every line strips to
something non-empty.  The Response Collectors only append stripped
non-empty lines, so their finalized ResponseSets satisfy this. -/
def WFResp : Option (List (List Nat)) → Prop :=
  fun o => ∀ r, o = some r → ∀ l ∈ r, pyStrip l ≠ []

/-- Outcome printed by `compare_responses` (`scripts/test_all.py` lines
539-623), as data: the SCPI branch prints consistency or a mismatch when
at least two channels are in `responses_dict` and nothing otherwise; the
general branch prints correct routing, unexpected HID/BLE responses, or a
missing CDC response. -/
inductive CompareResult where
  | scpiConsistent : CompareResult
  | scpiMismatch : CompareResult
  | scpiNoComparison : CompareResult
  | generalCorrect : CompareResult
  | generalUnexpected (hasHid hasBle : Bool) : CompareResult
  | generalNoCdc : CompareResult
  deriving DecidableEq

/-- The general-command branch of `compare_responses` printed one of the
two anomaly messages (unexpected HID/BLE response, or no CDC response). -/
def isGeneralAnomaly : CompareResult → Bool
  | CompareResult.generalUnexpected _ _ => true
  | CompareResult.generalNoCdc => true
  | _ => false

/-- Embedding of the verdict logic of `compare_responses`
(`scripts/test_all.py` lines 539-623). -/
def compare_responses (cdc_resp hid_resp ble_resp : Option (List (List Nat)))
    (cmd : List Nat) : CompareResult :=
  let entries := [dictEntry cdc_resp, dictEntry hid_resp,
    dictEntry ble_resp].reduceOption
  if is_scpi_command cmd then
    if 2 ≤ entries.length then
      if entries.all (fun s => decide (s = entries.headI)) then
        CompareResult.scpiConsistent
      else CompareResult.scpiMismatch
    else CompareResult.scpiNoComparison
  else
    match dictEntry cdc_resp with
    | some cdcSet =>
      if cdcSet ≠ ∅ then
        let hasHid := channelActive hid_resp
        let hasBle := channelActive ble_resp
        if hasHid = false ∧ hasBle = false then CompareResult.generalCorrect
        else CompareResult.generalUnexpected hasHid hasBle
      else CompareResult.generalNoCdc
    | none => CompareResult.generalNoCdc

theorem decodeGo_fuel : ∀ f1 f2 l, l.length ≤ f1 → l.length ≤ f2 →
    decodeGo f1 l = decodeGo f2 l := by
  intro f1
  induction f1 with
  | zero =>
    intro f2 l h1 _
    have : l = [] := List.length_eq_zero.mp (Nat.le_zero.mp h1)
    subst this
    cases f2 <;> rfl
  | succ f ih =>
    intro f2 l h1 h2
    cases l with
    | nil => cases f2 <;> rfl
    | cons b rest =>
      cases f2 with
      | zero => simp at h2
      | succ f2 =>
        simp only [decodeGo]
        cases hs : utf8Step b rest with
        | mk emit k =>
          cases emit with
          | some cp =>
            simp only []
            have hlen : (rest.drop k).length ≤ rest.length := by
              simp [List.length_drop]
            simp only [List.length_cons] at h1 h2
            rw [ih f2 (rest.drop k) (by omega) (by omega)]
          | none =>
            simp only []
            simp only [List.length_cons] at h1 h2
            rw [ih f2 rest (by omega) (by omega)]

/-- Unfolding equation for `utf8DecodeIgnore` on a cons cell. -/
theorem utf8DecodeIgnore_cons (b : Nat) (rest : List Nat) :
    utf8DecodeIgnore (b :: rest) =
      match utf8Step b rest with
      | (some cp, k) => cp :: utf8DecodeIgnore (rest.drop k)
      | (none, _) => utf8DecodeIgnore rest := by
  show decodeGo (rest.length + 1) (b :: rest) = _
  simp only [decodeGo]
  cases hs : utf8Step b rest with
  | mk emit k =>
    cases emit with
    | some cp =>
      simp only [utf8DecodeIgnore]
      rw [decodeGo_fuel rest.length (rest.drop k).length (rest.drop k)
        (by simp [List.length_drop]) (le_refl _)]
    | none => rfl


/-- Decoding an encoded scalar followed by anything yields that scalar and
continues with the remaining bytes. -/
theorem decode_encodeChar (n : Nat) (h : ValidScalar n) (rest : List Nat) :
    utf8DecodeIgnore (utf8EncodeChar n ++ rest) = n :: utf8DecodeIgnore rest := by
  obtain ⟨hlt, hsur⟩ := h
  by_cases h1 : n < 0x80
  · rw [utf8EncodeChar, if_pos h1, List.singleton_append, utf8DecodeIgnore_cons]
    have hstep : utf8Step n rest = (some n, 0) := by
      simp only [utf8Step, if_pos h1]
    rw [hstep]
    rfl
  · by_cases h2 : n < 0x800
    · rw [utf8EncodeChar, if_neg h1, if_pos h2]
      have hstep : utf8Step (0xC0 + n / 64) ((0x80 + n % 64) :: rest) =
          (some n, 1) := by
        have hA : ¬(0xC0 + n / 64 < 0x80) := by omega
        have hB : (0xC2 ≤ 0xC0 + n / 64 ∧ 0xC0 + n / 64 ≤ 0xDF) := by omega
        have hC : IsCont (0x80 + n % 64) := by unfold IsCont; omega
        have hv : (0xC0 + n / 64 - 0xC0) * 64 + (0x80 + n % 64 - 0x80) = n := by
          omega
        simp only [utf8Step, if_neg hA, if_pos hB, if_pos hC, hv]
      simp only [List.cons_append, List.nil_append]
      rw [utf8DecodeIgnore_cons, hstep]
      rfl
    · by_cases h3 : n < 0x10000
      · rw [utf8EncodeChar, if_neg h1, if_neg h2, if_pos h3]
        have hstep : utf8Step (0xE0 + n / 4096)
            ((0x80 + n / 64 % 64) :: (0x80 + n % 64) :: rest) =
            (some n, 2) := by
          have hA : ¬(0xE0 + n / 4096 < 0x80) := by omega
          have hB : ¬(0xC2 ≤ 0xE0 + n / 4096 ∧ 0xE0 + n / 4096 ≤ 0xDF) := by
            omega
          have hC : (0xE0 ≤ 0xE0 + n / 4096 ∧ 0xE0 + n / 4096 ≤ 0xEF) := by
            omega
          have hD : IsSnd3 (0xE0 + n / 4096) (0x80 + n / 64 % 64) := by
            unfold IsSnd3 IsCont
            by_cases hz : n / 4096 = 0
            · rw [if_pos (by omega)]
              omega
            · rw [if_neg (by omega)]
              by_cases hd : n / 4096 = 13
              · rw [if_pos (by omega)]
                omega
              · rw [if_neg (by omega)]
                omega
          have hE : IsCont (0x80 + n % 64) := by unfold IsCont; omega
          have hv : (0xE0 + n / 4096 - 0xE0) * 4096 +
              (0x80 + n / 64 % 64 - 0x80) * 64 + (0x80 + n % 64 - 0x80) = n := by
            omega
          simp only [utf8Step, if_neg hA, if_neg hB, if_pos hC,
            if_pos (And.intro hD hE), hv]
        simp only [List.cons_append, List.nil_append]
        rw [utf8DecodeIgnore_cons, hstep]
        rfl
      · rw [utf8EncodeChar, if_neg h1, if_neg h2, if_neg h3]
        have hstep : utf8Step (0xF0 + n / 0x40000)
            ((0x80 + n / 4096 % 64) :: (0x80 + n / 64 % 64) ::
              (0x80 + n % 64) :: rest) = (some n, 3) := by
          have hA : ¬(0xF0 + n / 0x40000 < 0x80) := by omega
          have hB : ¬(0xC2 ≤ 0xF0 + n / 0x40000 ∧
              0xF0 + n / 0x40000 ≤ 0xDF) := by omega
          have hC : ¬(0xE0 ≤ 0xF0 + n / 0x40000 ∧
              0xF0 + n / 0x40000 ≤ 0xEF) := by omega
          have hC2 : (0xF0 ≤ 0xF0 + n / 0x40000 ∧
              0xF0 + n / 0x40000 ≤ 0xF4) := by omega
          have hD : IsSnd4 (0xF0 + n / 0x40000) (0x80 + n / 4096 % 64) := by
            unfold IsSnd4 IsCont
            by_cases hz : n / 0x40000 = 0
            · rw [if_pos (by omega)]
              omega
            · by_cases hf : n / 0x40000 = 4
              · rw [if_neg (by omega), if_pos (by omega)]
                omega
              · rw [if_neg (by omega), if_neg (by omega)]
                omega
          have hE : IsCont (0x80 + n / 64 % 64) := by unfold IsCont; omega
          have hF : IsCont (0x80 + n % 64) := by unfold IsCont; omega
          have hv : (0xF0 + n / 0x40000 - 0xF0) * 0x40000 +
              (0x80 + n / 4096 % 64 - 0x80) * 4096 +
              (0x80 + n / 64 % 64 - 0x80) * 64 + (0x80 + n % 64 - 0x80) = n := by
            omega
          simp only [utf8Step, if_neg hA, if_neg hB, if_neg hC, if_pos hC2,
            if_pos (And.intro hD (And.intro hE hF)), hv]
        simp only [List.cons_append, List.nil_append]
        rw [utf8DecodeIgnore_cons, hstep]
        rfl


/-- A run of bare continuation bytes decodes to nothing under the ignore
policy. -/
theorem decode_contBytes (l : List Nat) (h : ∀ b ∈ l, 0x80 ≤ b ∧ b ≤ 0xBF) :
    utf8DecodeIgnore l = [] := by
  induction l with
  | nil => rfl
  | cons b rest ih =>
    have hb := h b (List.mem_cons_self b rest)
    have hstep : utf8Step b rest = (none, 0) := by
      have hA : ¬(b < 0x80) := by omega
      have hB : ¬(0xC2 ≤ b ∧ b ≤ 0xDF) := by omega
      have hC : ¬(0xE0 ≤ b ∧ b ≤ 0xEF) := by omega
      have hD : ¬(0xF0 ≤ b ∧ b ≤ 0xF4) := by omega
      simp only [utf8Step, if_neg hA, if_neg hB, if_neg hC, if_neg hD]
    rw [utf8DecodeIgnore_cons, hstep]
    exact ih (fun x hx => h x (List.mem_cons_of_mem _ hx))

/-- A proper prefix of one scalar's encoding (an incomplete trailing
sequence) decodes to nothing under the ignore policy. -/
theorem decode_encodeChar_take (n : Nat) (h : ValidScalar n) (k : Nat)
    (hk : k < (utf8EncodeChar n).length) :
    utf8DecodeIgnore ((utf8EncodeChar n).take k) = [] := by
  obtain ⟨hlt, hsur⟩ := h
  by_cases h1 : n < 0x80
  · rw [utf8EncodeChar, if_pos h1] at hk
    simp only [List.length_singleton] at hk
    have hk0 : k = 0 := by omega
    subst hk0
    rfl
  · by_cases h2 : n < 0x800
    · rw [utf8EncodeChar, if_neg h1, if_pos h2] at hk ⊢
      simp only [List.length_cons, List.length_nil] at hk
      interval_cases k
      · rfl
      · show utf8DecodeIgnore [0xC0 + n / 64] = []
        rw [utf8DecodeIgnore_cons]
        have hstep : utf8Step (0xC0 + n / 64) [] = (none, 0) := by
          have hA : ¬(0xC0 + n / 64 < 0x80) := by omega
          have hB : (0xC2 ≤ 0xC0 + n / 64 ∧ 0xC0 + n / 64 ≤ 0xDF) := by omega
          simp only [utf8Step, if_neg hA, if_pos hB]
        rw [hstep]
        rfl
    · by_cases h3 : n < 0x10000
      · rw [utf8EncodeChar, if_neg h1, if_neg h2, if_pos h3] at hk ⊢
        simp only [List.length_cons, List.length_nil] at hk
        have hA : ¬(0xE0 + n / 4096 < 0x80) := by omega
        have hB : ¬(0xC2 ≤ 0xE0 + n / 4096 ∧ 0xE0 + n / 4096 ≤ 0xDF) := by
          omega
        have hC : (0xE0 ≤ 0xE0 + n / 4096 ∧ 0xE0 + n / 4096 ≤ 0xEF) := by
          omega
        interval_cases k
        · rfl
        · show utf8DecodeIgnore [0xE0 + n / 4096] = []
          rw [utf8DecodeIgnore_cons]
          have hstep : utf8Step (0xE0 + n / 4096) [] = (none, 0) := by
            simp only [utf8Step, if_neg hA, if_neg hB, if_pos hC]
          rw [hstep]
          rfl
        · show utf8DecodeIgnore [0xE0 + n / 4096, 0x80 + n / 64 % 64] = []
          rw [utf8DecodeIgnore_cons]
          have hstep : utf8Step (0xE0 + n / 4096) [0x80 + n / 64 % 64] =
              (none, 0) := by
            simp only [utf8Step, if_neg hA, if_neg hB, if_pos hC]
          rw [hstep]
          exact decode_contBytes _ (by
            intro x hx
            rw [List.mem_singleton] at hx
            subst hx
            omega)
      · rw [utf8EncodeChar, if_neg h1, if_neg h2, if_neg h3] at hk ⊢
        simp only [List.length_cons, List.length_nil] at hk
        have hA : ¬(0xF0 + n / 0x40000 < 0x80) := by omega
        have hB : ¬(0xC2 ≤ 0xF0 + n / 0x40000 ∧ 0xF0 + n / 0x40000 ≤ 0xDF) := by
          omega
        have hC : ¬(0xE0 ≤ 0xF0 + n / 0x40000 ∧ 0xF0 + n / 0x40000 ≤ 0xEF) := by
          omega
        have hD : (0xF0 ≤ 0xF0 + n / 0x40000 ∧ 0xF0 + n / 0x40000 ≤ 0xF4) := by
          omega
        interval_cases k
        · rfl
        · show utf8DecodeIgnore [0xF0 + n / 0x40000] = []
          rw [utf8DecodeIgnore_cons]
          have hstep : utf8Step (0xF0 + n / 0x40000) [] = (none, 0) := by
            simp only [utf8Step, if_neg hA, if_neg hB, if_neg hC, if_pos hD]
          rw [hstep]
          rfl
        · show utf8DecodeIgnore
            [0xF0 + n / 0x40000, 0x80 + n / 4096 % 64] = []
          rw [utf8DecodeIgnore_cons]
          have hstep : utf8Step (0xF0 + n / 0x40000) [0x80 + n / 4096 % 64] =
              (none, 0) := by
            simp only [utf8Step, if_neg hA, if_neg hB, if_neg hC, if_pos hD]
          rw [hstep]
          exact decode_contBytes _ (by
            intro x hx
            rw [List.mem_singleton] at hx
            subst hx
            omega)
        · show utf8DecodeIgnore
            [0xF0 + n / 0x40000, 0x80 + n / 4096 % 64, 0x80 + n / 64 % 64] = []
          rw [utf8DecodeIgnore_cons]
          have hstep : utf8Step (0xF0 + n / 0x40000)
              [0x80 + n / 4096 % 64, 0x80 + n / 64 % 64] = (none, 0) := by
            simp only [utf8Step, if_neg hA, if_neg hB, if_neg hC, if_pos hD]
          rw [hstep]
          exact decode_contBytes _ (by
            intro x hx
            rw [List.mem_cons, List.mem_singleton] at hx
            rcases hx with hx | hx <;> subst hx <;> omega)

/-- The UTF-8 encoding of a cons. -/
theorem utf8Encode_cons (c : Nat) (cs : List Nat) :
    utf8Encode (c :: cs) = utf8EncodeChar c ++ utf8Encode cs := by
  simp [utf8Encode]

/-- Ignore-decoding inverts encoding on valid strings (Python:
`s.encode('utf-8').decode('utf-8', errors='ignore') == s`). -/
theorem utf8_roundtrip (s : List Nat) (h : ValidStr s) :
    utf8DecodeIgnore (utf8Encode s) = s := by
  induction s with
  | nil => rfl
  | cons c cs ih =>
    have hc : ValidScalar c := h c (List.mem_cons_self c cs)
    have hcs : ValidStr cs := fun x hx => h x (List.mem_cons_of_mem _ hx)
    rw [utf8Encode_cons, decode_encodeChar c hc, ih hcs]

/-- Ignore-decoding a byte-truncated encoding yields the longest prefix of
the string whose encoding fits (a trailing split character is dropped). -/
theorem utf8_decode_take (s : List Nat) (h : ValidStr s) : ∀ m : Nat,
    utf8DecodeIgnore ((utf8Encode s).take m) = fitPrefix m s := by
  induction s with
  | nil =>
    intro m
    rw [show utf8Encode [] = [] from rfl, List.take_nil]
    rfl
  | cons c cs ih =>
    intro m
    have hc : ValidScalar c := h c (List.mem_cons_self c cs)
    have hcs : ValidStr cs := fun x hx => h x (List.mem_cons_of_mem _ hx)
    rw [utf8Encode_cons, List.take_append_eq_append_take]
    by_cases hm : (utf8EncodeChar c).length ≤ m
    · rw [List.take_of_length_le hm, decode_encodeChar c hc,
        ih hcs (m - (utf8EncodeChar c).length)]
      simp only [fitPrefix]
      rw [if_pos hm]
    · have hm2 : m - (utf8EncodeChar c).length = 0 := by omega
      rw [hm2, List.take_zero, List.append_nil,
        decode_encodeChar_take c hc m (by omega)]
      simp only [fitPrefix]
      rw [if_neg hm]

/-- When the whole encoding fits in the budget, the fitting prefix is the
whole string. -/
theorem fitPrefix_all (s : List Nat) : ∀ m : Nat,
    (utf8Encode s).length ≤ m → fitPrefix m s = s := by
  induction s with
  | nil => intro m _; rfl
  | cons c cs ih =>
    intro m hm
    rw [utf8Encode_cons, List.length_append] at hm
    simp only [fitPrefix]
    rw [if_pos (by omega), ih _ (by omega)]


/-- Shape of the encoded packet: header, truncated payload, zero padding. -/
theorem encode_hid_command_eq (cmd : List Nat) :
    encode_hid_command cmd =
      0 :: 0xA1 :: min (utf8Encode cmd).length 61 :: 0 ::
        ((utf8Encode cmd).take (min (utf8Encode cmd).length 61) ++
          List.replicate (61 - min (utf8Encode cmd).length 61) 0) := by
  simp only [encode_hid_command, HID_PACKET_SIZE, HID_PROTOCOL_HEADER_SIZE,
    HID_MAX_COMMAND_LENGTH, List.cons_append, List.nil_append]

/-- The encoded packet always has the 65 bytes pywinusb expects. -/
theorem encode_hid_command_length (cmd : List Nat) :
    (encode_hid_command cmd).length = 65 := by
  rw [encode_hid_command_eq]
  have h1 : min (utf8Encode cmd).length 61 ≤ (utf8Encode cmd).length :=
    min_le_left _ _
  simp only [List.length_cons, List.length_append, List.length_take,
    List.length_replicate]
  omega

/-- Decoding the encoder output recovers the longest prefix of the command
whose UTF-8 encoding fits in the 61-byte payload. -/
theorem decode_encode_hid (cmd : List Nat) (h : ValidStr cmd)
    (hne : 1 ≤ (utf8Encode cmd).length) :
    decode_hid_response (encode_hid_command cmd) = some (fitPrefix 61 cmd) := by
  have hL61 : min (utf8Encode cmd).length 61 ≤ 61 := min_le_right _ _
  have hLe : min (utf8Encode cmd).length 61 ≤ (utf8Encode cmd).length :=
    min_le_left _ _
  have hL1 : 0 < min (utf8Encode cmd).length 61 := by omega
  have htl : ((utf8Encode cmd).take (min (utf8Encode cmd).length 61)).length =
      min (utf8Encode cmd).length 61 := by
    simp only [List.length_take]
    omega
  have hlen65 : (0 :: 0xA1 :: min (utf8Encode cmd).length 61 :: 0 ::
      ((utf8Encode cmd).take (min (utf8Encode cmd).length 61) ++
        List.replicate (61 - min (utf8Encode cmd).length 61) 0)).length = 65 := by
    simp only [List.length_cons, List.length_append, List.length_replicate, htl]
    omega
  rw [encode_hid_command_eq]
  simp only [decode_hid_response, hlen65, List.getD_cons_succ,
    List.getD_cons_zero, HID_MAX_COMMAND_LENGTH]
  rw [if_pos (show (5:Nat) ≤ 65 by norm_num), if_pos (And.intro hL1 hL61)]
  simp only [List.drop_succ_cons, List.drop_zero,
    List.take_append_eq_append_take, htl, Nat.sub_self, List.take_zero,
    List.append_nil, List.take_of_length_le (le_of_eq htl)]
  rcases le_or_lt (utf8Encode cmd).length 61 with hle | hgt
  · rw [min_eq_left hle, List.take_length, utf8_roundtrip cmd h,
      fitPrefix_all cmd 61 hle]
    simp
  · rw [min_eq_right (le_of_lt hgt), utf8_decode_take cmd h 61]
    simp


/-- Positional agreement at in-range indices plus equal lengths gives equal
optional lookups. -/
theorem getElem?_eq_of_getD (d d2 : List Nat) (hlen : d.length = d2.length)
    (i : Nat) (hg : d.getD i 0 = d2.getD i 0) : d[i]? = d2[i]? := by
  by_cases hi : i < d.length
  · have hi2 : i < d2.length := hlen ▸ hi
    rw [List.getD_eq_getElem?_getD, List.getD_eq_getElem?_getD] at hg
    rw [List.getElem?_eq_getElem hi, List.getElem?_eq_getElem hi2] at hg ⊢
    simpa using hg
  · rw [List.getElem?_eq_none (by omega), List.getElem?_eq_none (by omega)]

/-- C1 (corrected).  For every valid command whose UTF-8 encoding has
between 1 and 61 bytes, decoding the encoded packet returns exactly the
command — in particular the maximum-length 61-byte command round-trips
losslessly.  For a longer command the decoder returns the longest prefix
of the command whose encoding fits in 61 bytes: byte-truncation at 61 can
split a multi-byte character, whose remaining lead bytes the ignore-policy
decoder drops, so the result is the fitting character prefix rather than a
string occupying exactly the first 61 encoded bytes. -/
theorem report_codec_roundtrip (cmd : List Nat) (h : ValidStr cmd) :
    (1 ≤ (utf8Encode cmd).length → (utf8Encode cmd).length ≤ 61 →
      decode_hid_response (encode_hid_command cmd) = some cmd) ∧
    (61 < (utf8Encode cmd).length →
      decode_hid_response (encode_hid_command cmd) =
        some (fitPrefix 61 cmd)) := by
  constructor
  · intro h1 h61
    rw [decode_encode_hid cmd h h1, fitPrefix_all cmd 61 h61]
  · intro hgt
    exact decode_encode_hid cmd h (by omega)

/-- C1 witness: the maximum-length 61-byte command round-trips losslessly. -/
theorem report_codec_roundtrip_witness :
    decode_hid_response (encode_hid_command (List.replicate 61 65)) =
      some (List.replicate 61 65) :=
  (report_codec_roundtrip (List.replicate 61 65) (by decide)).1
    (by decide) (by decide)

/-- C1 counterexample: a 62-byte command (60 ASCII bytes plus one 2-byte
character) decodes to just the 60 ASCII characters — a 60-byte string, not
the command truncated to its first 61 bytes (no string at all encodes to
those 61 bytes, which end in a dangling lead byte). -/
theorem report_codec_truncation_counterexample :
    61 < (utf8Encode (List.replicate 60 97 ++ [233])).length ∧
    decode_hid_response (encode_hid_command (List.replicate 60 97 ++ [233])) =
      some (List.replicate 60 97) ∧
    utf8Encode (List.replicate 60 97) ≠
      (utf8Encode (List.replicate 60 97 ++ [233])).take 61 := by
  refine ⟨by decide, ?_, by decide⟩
  decide

/-- C3.  The decoder rejects (returns `None` for) every packet shorter
than 5 bytes, every packet whose marker byte (index 1) is not `0xA1`, and
every packet whose declared length (index 2) is `0` or exceeds 61; and on
every input it is total, returning `None` or a string. -/
theorem decoder_rejection_guards (data : List Nat) :
    (data.length < 5 ∨ data.getD 1 0 ≠ 0xA1 ∨ data.getD 2 0 = 0 ∨
        61 < data.getD 2 0 →
      decode_hid_response data = none) ∧
    (decode_hid_response data = none ∨
      ∃ s, decode_hid_response data = some s) := by
  constructor
  · intro hbad
    simp only [decode_hid_response, HID_MAX_COMMAND_LENGTH]
    split_ifs with h1 h2 h3
    · rcases hbad with hb | hb | hb | hb
      · omega
      · exact absurd h2 hb
      · omega
      · omega
    · rfl
    · rfl
    · rfl
  · simp only [decode_hid_response]
    split_ifs <;> first
      | exact Or.inl rfl
      | exact Or.inr (Exists.intro _ rfl)

/-- C3 witness: a well-formed packet with declared length `0` is rejected. -/
theorem decoder_rejection_guards_witness :
    decode_hid_response [0, 0xA1, 0, 0, 0] = none :=
  (decoder_rejection_guards [0, 0xA1, 0, 0, 0]).1 (by decide)

/-- C8 (corrected).  A command whose UTF-8 encoding exceeds 61 bytes is
encoded with its payload truncated to the first 61 bytes (declared length
61, 65-byte packet), and the encoder is total; but no truncation flag is
signaled to the caller: the packet is the encoder's only output and it is
identical to the packet of any command encoding to exactly those 61 bytes
(`test_hid.py`'s variant prints a console warning, which likewise does not
reach the caller). -/
theorem encoder_truncation (cmd : List Nat)
    (hlong : 61 < (utf8Encode cmd).length) :
    encode_hid_command cmd =
      0 :: 0xA1 :: 61 :: 0 :: (utf8Encode cmd).take 61 ∧
    (encode_hid_command cmd).length = 65 ∧
    ∀ other : List Nat, utf8Encode other = (utf8Encode cmd).take 61 →
      encode_hid_command other = encode_hid_command cmd := by
  have hmin : min (utf8Encode cmd).length 61 = 61 := min_eq_right (by omega)
  have hshape : encode_hid_command cmd =
      0 :: 0xA1 :: 61 :: 0 :: (utf8Encode cmd).take 61 := by
    rw [encode_hid_command_eq, hmin]
    simp
  refine ⟨hshape, ?_, ?_⟩
  · exact encode_hid_command_length cmd
  · intro other hother
    have hlen : (utf8Encode other).length = 61 := by
      rw [hother]
      simp only [List.length_take]
      omega
    rw [encode_hid_command_eq, hlen, hother, hshape]
    simp [List.take_take]

/-- C8 witness: a 62-`'A'` command is truncated to a 61-byte payload. -/
theorem encoder_truncation_witness :
    encode_hid_command (List.replicate 62 65) =
      0 :: 0xA1 :: 61 :: 0 :: (utf8Encode (List.replicate 62 65)).take 61 :=
  (encoder_truncation (List.replicate 62 65) (by decide)).1

/-- C8 counterexample: a truncated (62-byte) command and its untruncated
61-byte prefix produce bit-identical packets, so the caller of
`encode_hid_command` receives no truncation signal whatsoever. -/
theorem encoder_truncation_counterexample :
    encode_hid_command (List.replicate 62 65) =
      encode_hid_command (List.replicate 61 65) ∧
    (List.replicate 62 65 : List Nat) ≠ List.replicate 61 65 := by
  constructor
  · decide
  · decide

/-- C9.  Two packets of equal total length agreeing at the marker byte
(index 1), the declared-length byte (index 2) and the payload indices
`4 .. 4+length-1` decode identically: the report-id byte (index 0), the
reserved byte (index 3) and all padding past the payload never influence
the decoded result. -/
theorem decoder_noninterference (d d2 : List Nat)
    (hlen : d.length = d2.length)
    (h1 : d.getD 1 0 = d2.getD 1 0)
    (h2 : d.getD 2 0 = d2.getD 2 0)
    (hp : ∀ i, 4 ≤ i → i < 4 + d.getD 2 0 → d.getD i 0 = d2.getD i 0) :
    decode_hid_response d = decode_hid_response d2 := by
  have hpay : (d.drop 4).take (d.getD 2 0) =
      (d2.drop 4).take (d2.getD 2 0) := by
    rw [← h2]
    apply List.ext_getElem?
    intro n
    rw [List.getElem?_take, List.getElem?_take]
    by_cases hn : n < d.getD 2 0
    · rw [if_pos hn, if_pos hn, List.getElem?_drop, List.getElem?_drop]
      exact getElem?_eq_of_getD d d2 hlen (4 + n)
        (hp (4 + n) (by omega) (by omega))
    · rw [if_neg hn, if_neg hn]
  simp only [decode_hid_response, hpay]
  simp only [hlen, h1, h2]

/-- C9 witness: differing report-id, reserved and padding bytes do not
change the decoded response. -/
theorem decoder_noninterference_witness :
    decode_hid_response [0, 0xA1, 2, 0, 65, 66, 0, 0] =
      decode_hid_response [9, 0xA1, 2, 7, 65, 66, 3, 4] := by
  have h := decoder_noninterference [0, 0xA1, 2, 0, 65, 66, 0, 0]
    [9, 0xA1, 2, 7, 65, 66, 3, 4] (by decide) (by decide) (by decide)
    (by decide)
  exact h

/-- C10.  A packet passing all the guards but whose total length is less
than `4 + declared length` (a partially arrived report) is not rejected:
the decoder returns the string decoded from just the bytes present after
index 4, fewer than the declared length. -/
theorem decoder_short_payload (d : List Nat) (h5 : 5 ≤ d.length)
    (hm : d.getD 1 0 = 0xA1) (hL1 : 0 < d.getD 2 0) (hL61 : d.getD 2 0 ≤ 61)
    (hshort : d.length < 4 + d.getD 2 0) :
    decode_hid_response d = some (utf8DecodeIgnore (d.drop 4)) ∧
    (d.drop 4).length < d.getD 2 0 := by
  constructor
  · simp only [decode_hid_response, HID_MAX_COMMAND_LENGTH]
    rw [if_pos h5, if_pos hm, if_pos (And.intro hL1 hL61)]
    rw [List.take_of_length_le (by simp only [List.length_drop]; omega)]
  · simp only [List.length_drop]
    omega

/-- C10 witness: a 6-byte packet declaring a 10-byte payload still decodes
to the two payload bytes present. -/
theorem decoder_short_payload_witness :
    decode_hid_response [0, 0xA1, 10, 0, 65, 66] = some [65, 66] := by
  have h := (decoder_short_payload [0, 0xA1, 10, 0, 65, 66] (by decide)
    (by decide) (by decide) (by decide) (by decide)).1
  rw [h]
  decide


/-- The head of a `dropWhile` result never satisfies the predicate. -/
theorem dropWhile_head_not (p : Nat → Bool) (s : List Nat) :
    ∀ c r, s.dropWhile p = c :: r → p c = false := by
  induction s with
  | nil =>
    intro c r h
    simp [List.dropWhile] at h
  | cons a t ih =>
    intro c r h
    rw [List.dropWhile_cons] at h
    by_cases hp : p a
    · rw [if_pos hp] at h
      exact ih c r h
    · rw [if_neg hp] at h
      cases h
      simpa using hp

/-- Stripping does not change the first character: the head of
`pyStrip s` is the first non-whitespace character of `s`. -/
theorem pyStrip_head (s : List Nat) :
    (pyStrip s).head? = (s.dropWhile isPySpace).head? := by
  unfold pyStrip
  cases hdw : s.dropWhile isPySpace with
  | nil => rfl
  | cons c r =>
    have hc : isPySpace c = false := dropWhile_head_not isPySpace s c r hdw
    have hrev : (c :: r).reverse = r.reverse ++ [c] := by simp
    rw [hrev, List.dropWhile_append]
    by_cases he : (r.reverse.dropWhile isPySpace).isEmpty
    · rw [if_pos he]
      rw [List.dropWhile_cons, if_neg (by simp [hc])]
      simp
    · rw [if_neg he]
      simp

/-- C4.  The classifier returns SCPI exactly when the first non-whitespace
character of the command is `*` (code point 42); in particular the empty
command and pure-whitespace commands classify as General. -/
theorem classifier_rule (cmd : List Nat) :
    is_scpi_command cmd = true ↔
      (cmd.dropWhile isPySpace).head? = some 42 := by
  rw [← pyStrip_head]
  unfold is_scpi_command
  cases hps : pyStrip cmd with
  | nil => simp
  | cons c r => simp


/-- Every line the HID loop keeps is non-empty (it passed the
`line.strip()` truthiness filter). -/
theorem hidPollLines_ne_nil (chunks : List (List Nat)) :
    ∀ l ∈ hidPollLines chunks, l ≠ [] := by
  intro l hl
  unfold hidPollLines at hl
  rw [List.mem_flatten] at hl
  obtain ⟨ls, hls, hmem⟩ := hl
  rw [List.mem_map] at hls
  obtain ⟨chunk, _, rfl⟩ := hls
  unfold hidChunkLines at hmem
  cases hdec : decode_hid_response chunk with
  | none =>
    simp only [hdec] at hmem
    simp at hmem
  | some r =>
    simp only [hdec] at hmem
    by_cases hr : r ≠ []
    · rw [if_pos hr] at hmem
      rw [List.mem_filter] at hmem
      simpa using hmem.2
    · rw [if_neg hr] at hmem
      simp at hmem

/-- The HID collector only accumulates non-empty lines. -/
theorem hidRun_preserve (ps : List (List (List Nat))) :
    ∀ resp idle, (∀ l ∈ resp, l ≠ ([] : List Nat)) →
      ∀ l ∈ (hidRun ps (resp, idle)).1, l ≠ [] := by
  induction ps with
  | nil =>
    intro resp idle h
    exact h
  | cons p ps ih =>
    intro resp idle h
    simp only [hidRun]
    split_ifs with hp hbr
    · apply ih
      intro l hl
      rw [List.mem_append] at hl
      rcases hl with hl | hl
      · exact h l hl
      · exact hidPollLines_ne_nil p l hl
    · exact h
    · exact ih _ _ h

/-- The CDC collector only accumulates non-empty lines distinct from the
bare prompt marker. -/
theorem cdcRun_preserve (ps : List CdcPoll) :
    ∀ resp idle, (∀ l ∈ resp, l ≠ ([] : List Nat) ∧ l ≠ [62]) →
      ∀ l ∈ (cdcRun ps (resp, idle)).1, l ≠ [] ∧ l ≠ [62] := by
  induction ps with
  | nil =>
    intro resp idle h
    exact h
  | cons p ps ih =>
    intro resp idle h
    cases p with
    | noData =>
      simp only [cdcRun]
      split_ifs with hbr
      · exact h
      · exact ih _ _ h
    | line raw =>
      simp only [cdcRun]
      split_ifs with hl
      · apply ih
        intro l hlm
        rw [List.mem_append] at hlm
        rcases hlm with hm | hm
        · exact h l hm
        · rw [List.mem_singleton] at hm
          subst hm
          exact hl
      · exact ih _ _ h

/-- C5 (corrected).  The CDC collector never places an empty line or the
bare prompt marker `>` (code point 62) in its finalized response list, and
the HID collector never places an empty line in its finalized list; but
the HID (and BLE) loops do not filter the bare `>` — only empty and
whitespace-only segments are discarded there. -/
theorem prompt_marker_filtering (cpolls : List CdcPoll)
    (hpolls : List (List (List Nat))) :
    (∀ l ∈ (cdcRun cpolls ([], 0)).1, l ≠ [] ∧ l ≠ [62]) ∧
    (∀ l ∈ (hidRun hpolls ([], 0)).1, l ≠ []) :=
  ⟨cdcRun_preserve cpolls [] 0 (by simp),
   hidRun_preserve hpolls [] 0 (by simp)⟩

/-- C5 witness: a kept CDC line is neither empty nor the prompt marker. -/
theorem prompt_marker_filtering_witness :
    ([120] : List Nat) ≠ [] ∧ ([120] : List Nat) ≠ [62] :=
  (prompt_marker_filtering [CdcPoll.line [120]] []).1 [120] (by decide)

/-- C5 counterexample: a HID report whose payload is exactly `>` puts the
bare prompt marker into the finalized HID response list — the HID loop has
no `line != ">"` filter. -/
theorem prompt_marker_filtering_counterexample :
    (hidRun [[[0, 0xA1, 1, 0, 62]]] ([], 0)).1 = [[62]] := by decide


theorem hidPollLines_nil : hidPollLines [] = [] := rfl

theorem hidAllLines_nil : hidAllLines [] = [] := rfl

theorem hidAllLines_cons (p : List (List Nat)) (ps : List (List (List Nat))) :
    hidAllLines (p :: ps) = hidPollLines p ++ hidAllLines ps := by
  simp [hidAllLines]

theorem cdcAllLines_nil : cdcAllLines [] = [] := rfl

theorem cdcAllLines_cons_none (p : CdcPoll) (ps : List CdcPoll)
    (h : cdcLineOf p = none) : cdcAllLines (p :: ps) = cdcAllLines ps := by
  simp [cdcAllLines, List.filterMap_cons, h]

theorem cdcAllLines_cons_some (p : CdcPoll) (ps : List CdcPoll) (l : List Nat)
    (h : cdcLineOf p = some l) :
    cdcAllLines (p :: ps) = l :: cdcAllLines ps := by
  simp [cdcAllLines, List.filterMap_cons, h]

/-- Any count up to the total can be realized by a prefix. -/
theorem exists_prefix_countP {α : Type} (q : α → Bool) :
    ∀ (l : List α) (m : Nat), m ≤ l.countP q →
      ∃ l1 l2, l = l1 ++ l2 ∧ l1.countP q = m := by
  intro l
  induction l with
  | nil =>
    intro m hm
    have hm0 : m = 0 := by simpa using hm
    subst hm0
    exact ⟨[], [], rfl, by simp⟩
  | cons a t ih =>
    intro m hm
    cases m with
    | zero => exact ⟨[], a :: t, rfl, by simp⟩
    | succ m2 =>
      rw [List.countP_cons] at hm
      by_cases hq : q a
      · simp only [hq, if_pos] at hm
        obtain ⟨l1, l2, heq, hc⟩ := ih m2 (by omega)
        refine ⟨a :: l1, l2, by rw [heq, List.cons_append], ?_⟩
        rw [List.countP_cons]
        simp [hq, hc]
      · have hq2 : q a = false := by simpa using hq
        rw [hq2] at hm
        simp only [Bool.false_eq_true, if_false, Nat.add_zero] at hm
        obtain ⟨l1, l2, heq, hc⟩ := ih (m2 + 1) hm
        refine ⟨a :: l1, l2, by rw [heq, List.cons_append], ?_⟩
        rw [List.countP_cons]
        simp [hq, hc]

/-- If the HID loop exited early it had collected at least one line. -/
theorem hidRun_true_ne (ps : List (List (List Nat))) :
    ∀ resp idle, (hidRun ps (resp, idle)).2 = true →
      (hidRun ps (resp, idle)).1 ≠ [] := by
  induction ps with
  | nil =>
    intro resp idle h
    simp [hidRun] at h
  | cons p tl ih =>
    intro resp idle
    simp only [hidRun]
    split_ifs with hp hbr
    · exact ih _ _
    · intro _
      exact hbr.2
    · exact ih _ _

/-- If the CDC loop exited early it had collected at least one line. -/
theorem cdcRun_true_ne (ps : List CdcPoll) :
    ∀ resp idle, (cdcRun ps (resp, idle)).2 = true →
      (cdcRun ps (resp, idle)).1 ≠ [] := by
  induction ps with
  | nil =>
    intro resp idle h
    simp [cdcRun] at h
  | cons p tl ih =>
    intro resp idle
    cases p with
    | noData =>
      simp only [cdcRun]
      split_ifs with hbr
      · intro _
        exact hbr.2
      · exact ih _ _
    | line raw =>
      simp only [cdcRun]
      split_ifs with hl
      · exact ih _ _
      · exact ih _ _


/-- State-generalized characterization of the HID loop's early exit: from
state `(resp, idle)` the loop breaks exactly when either the idle counter
is completed to `MAX_IDLE_POLLS` by an immediate run of no-data polls with
`resp` already non-empty, or a full run of `MAX_IDLE_POLLS` no-data polls
occurs after a prefix that leaves the collected lines non-empty. -/
theorem hidRun_early_iff (ps : List (List (List Nat))) :
    ∀ (resp : List (List Nat)) (idle : Nat),
    (resp ≠ [] → idle < MAX_IDLE_POLLS) →
    ((hidRun ps (resp, idle)).2 = true ↔
      ((resp ≠ [] ∧ ∃ mid rest, ps = mid ++ rest ∧
          (∀ p ∈ mid, p = ([] : List (List Nat))) ∧
          mid.length = MAX_IDLE_POLLS - idle) ∨
        (∃ pre mid rest, ps = pre ++ mid ++ rest ∧
          resp ++ hidAllLines pre ≠ [] ∧
          (∀ p ∈ mid, p = ([] : List (List Nat))) ∧
          mid.length = MAX_IDLE_POLLS))) := by
  induction ps with
  | nil =>
    intro resp idle hinv
    simp only [hidRun]
    constructor
    · intro h
      simp at h
    · rintro (⟨hresp, mid, rest, heq, hall, hlen⟩ |
        ⟨pre, mid, rest, heq, hne, hall, hlen⟩)
      · exfalso
        obtain ⟨hm, hr⟩ := List.append_eq_nil.mp heq.symm
        subst hm
        have := hinv hresp
        simp only [List.length_nil, MAX_IDLE_POLLS] at hlen this
        omega
      · exfalso
        rw [List.append_assoc] at heq
        obtain ⟨hm, hr⟩ := List.append_eq_nil.mp heq.symm
        obtain ⟨hm2, hr2⟩ := List.append_eq_nil.mp hr
        subst hm2
        simp [MAX_IDLE_POLLS] at hlen
  | cons p tl ih =>
    intro resp idle hinv
    by_cases hp : p = []
    · subst hp
      simp only [hidRun, ne_eq, not_true_eq_false, if_false]
      by_cases hbr : MAX_IDLE_POLLS ≤ idle + 1 ∧ resp ≠ []
      · rw [if_pos hbr]
        constructor
        · intro _
          left
          refine ⟨hbr.2, [[]], tl, rfl, by simp, ?_⟩
          have h1 := hinv hbr.2
          have h2 := hbr.1
          simp only [List.length_cons, List.length_nil, MAX_IDLE_POLLS] at *
          omega
        · intro _
          rfl
      · rw [if_neg hbr]
        have hinv2 : resp ≠ [] → idle + 1 < MAX_IDLE_POLLS := by
          intro hr
          have h1 := hinv hr
          rcases not_and_or.mp hbr with h | h
          · omega
          · exact absurd hr h
        rw [ih resp (idle + 1) hinv2]
        constructor
        · rintro (⟨hresp, mid, rest, heq, hall, hlen⟩ |
            ⟨pre, mid, rest, heq, hne, hall, hlen⟩)
          · left
            refine ⟨hresp, [] :: mid, rest, by simp [heq], ?_, ?_⟩
            · intro q hq
              rcases List.mem_cons.mp hq with h | h
              · exact h
              · exact hall q h
            · have := hinv hresp
              simp only [List.length_cons, hlen, MAX_IDLE_POLLS] at *
              omega
          · right
            refine ⟨[] :: pre, mid, rest, by simp [heq], ?_,
              hall, hlen⟩
            rw [hidAllLines_cons, hidPollLines_nil, List.nil_append]
            exact hne
        · rintro (⟨hresp, mid, rest, heq, hall, hlen⟩ |
            ⟨pre, mid, rest, heq, hne, hall, hlen⟩)
          · left
            have hlt := hinv hresp
            cases mid with
            | nil =>
              exfalso
              simp only [List.length_nil, MAX_IDLE_POLLS] at hlen hlt
              omega
            | cons m mtl =>
              rw [List.cons_append] at heq
              injection heq with h1 h2
              refine ⟨hresp, mtl, rest, h2,
                fun q hq => hall q (List.mem_cons_of_mem _ hq), ?_⟩
              simp only [List.length_cons, MAX_IDLE_POLLS] at hlen hlt ⊢
              omega
          · cases pre with
            | nil =>
              left
              simp only [List.nil_append] at heq
              rw [hidAllLines_nil, List.append_nil] at hne
              cases mid with
              | nil =>
                exfalso
                simp [MAX_IDLE_POLLS] at hlen
              | cons m mtl =>
                rw [List.cons_append] at heq
                injection heq with h1 h2
                have hlt := hinv2 hne
                refine ⟨hne, mtl.take (MAX_IDLE_POLLS - (idle + 1)),
                  mtl.drop (MAX_IDLE_POLLS - (idle + 1)) ++ rest, ?_, ?_, ?_⟩
                · rw [h2, ← List.append_assoc, List.take_append_drop]
                · intro q hq
                  exact hall q
                    (List.mem_cons_of_mem _ (List.take_subset _ _ hq))
                · rw [List.length_take]
                  simp only [List.length_cons, MAX_IDLE_POLLS] at hlen hlt ⊢
                  omega
            | cons q pre2 =>
              right
              rw [List.cons_append, List.cons_append] at heq
              injection heq with h1 h2
              refine ⟨pre2, mid, rest, h2, ?_, hall, hlen⟩
              rw [← h1, hidAllLines_cons, hidPollLines_nil,
                List.nil_append] at hne
              exact hne
    · simp only [hidRun, if_pos hp]
      rw [ih (resp ++ hidPollLines p) 0
        (fun _ => by simp [MAX_IDLE_POLLS])]
      constructor
      · rintro (⟨hresp, mid, rest, heq, hall, hlen⟩ |
          ⟨pre, mid, rest, heq, hne, hall, hlen⟩)
        · right
          refine ⟨[p], mid, rest, by simp [heq], ?_, hall, ?_⟩
          · rw [hidAllLines_cons, hidAllLines_nil, List.append_nil]
            exact hresp
          · simpa using hlen
        · right
          refine ⟨p :: pre, mid, rest, by simp [heq], ?_,
            hall, hlen⟩
          rw [hidAllLines_cons, ← List.append_assoc]
          exact hne
      · rintro (⟨hresp, mid, rest, heq, hall, hlen⟩ |
          ⟨pre, mid, rest, heq, hne, hall, hlen⟩)
        · exfalso
          have hlt := hinv hresp
          cases mid with
          | nil =>
            simp only [List.length_nil, MAX_IDLE_POLLS] at hlen hlt
            omega
          | cons m mtl =>
            rw [List.cons_append] at heq
            injection heq with h1 h2
            exact hp (h1 ▸ hall m (List.mem_cons_self _ _))
        · cases pre with
          | nil =>
            exfalso
            simp only [List.nil_append] at heq
            cases mid with
            | nil =>
              simp [MAX_IDLE_POLLS] at hlen
            | cons m mtl =>
              rw [List.cons_append] at heq
              injection heq with h1 h2
              exact hp (h1 ▸ hall m (List.mem_cons_self _ _))
          | cons q pre2 =>
            right
            rw [List.cons_append, List.cons_append] at heq
            injection heq with h1 h2
            refine ⟨pre2, mid, rest, h2, ?_, hall, hlen⟩
            rw [← h1, hidAllLines_cons, ← List.append_assoc] at hne
            exact hne


/-- State-generalized characterization of the CDC loop's early exit.  The
idle counter is reset only by polls contributing a kept line and is
incremented only by no-data polls; polls returning a blank or bare-`>`
line do neither. -/
theorem cdcRun_early_iff (ps : List CdcPoll) :
    ∀ (resp : List (List Nat)) (idle : Nat),
    (resp ≠ [] → idle < MAX_IDLE_POLLS) →
    ((cdcRun ps (resp, idle)).2 = true ↔
      ((resp ≠ [] ∧ ∃ mid rest, ps = mid ++ rest ∧
          (∀ p ∈ mid, cdcLineOf p = none) ∧
          mid.countP (fun p => decide (p = CdcPoll.noData)) =
            MAX_IDLE_POLLS - idle) ∨
        (∃ pre mid rest, ps = pre ++ mid ++ rest ∧
          resp ++ cdcAllLines pre ≠ [] ∧
          (∀ p ∈ mid, cdcLineOf p = none) ∧
          mid.countP (fun p => decide (p = CdcPoll.noData)) =
            MAX_IDLE_POLLS))) := by
  induction ps with
  | nil =>
    intro resp idle hinv
    simp only [cdcRun]
    constructor
    · intro h
      simp at h
    · rintro (⟨hresp, mid, rest, heq, hall, hlen⟩ |
        ⟨pre, mid, rest, heq, hne, hall, hlen⟩)
      · exfalso
        obtain ⟨hm, _⟩ := List.append_eq_nil.mp heq.symm
        subst hm
        have := hinv hresp
        simp only [List.countP_nil, MAX_IDLE_POLLS] at hlen this
        omega
      · exfalso
        rw [List.append_assoc] at heq
        obtain ⟨hm, hr⟩ := List.append_eq_nil.mp heq.symm
        obtain ⟨hm2, _⟩ := List.append_eq_nil.mp hr
        subst hm2
        simp [MAX_IDLE_POLLS] at hlen
  | cons p tl ih =>
    intro resp idle hinv
    cases p with
    | noData =>
      simp only [cdcRun]
      by_cases hbr : MAX_IDLE_POLLS ≤ idle + 1 ∧ resp ≠ []
      · rw [if_pos hbr]
        constructor
        · intro _
          left
          refine ⟨hbr.2, [CdcPoll.noData], tl, rfl, ?_, ?_⟩
          · intro q hq
            rw [List.mem_singleton] at hq
            subst hq
            rfl
          · have h1 := hinv hbr.2
            have h2 := hbr.1
            simp only [MAX_IDLE_POLLS] at *
            simp only [List.countP_cons, List.countP_nil]
            simp
            omega
        · intro _
          rfl
      · rw [if_neg hbr]
        have hinv2 : resp ≠ [] → idle + 1 < MAX_IDLE_POLLS := by
          intro hr
          have h1 := hinv hr
          rcases not_and_or.mp hbr with h | h
          · omega
          · exact absurd hr h
        rw [ih resp (idle + 1) hinv2]
        constructor
        · rintro (⟨hresp, mid, rest, heq, hall, hlen⟩ |
            ⟨pre, mid, rest, heq, hne, hall, hlen⟩)
          · left
            refine ⟨hresp, CdcPoll.noData :: mid, rest, by simp [heq], ?_, ?_⟩
            · intro q hq
              rcases List.mem_cons.mp hq with h | h
              · subst h
                rfl
              · exact hall q h
            · rw [List.countP_cons]
              have := hinv hresp
              simp only [MAX_IDLE_POLLS] at *
              simp [hlen]
              omega
          · right
            refine ⟨CdcPoll.noData :: pre, mid, rest, by simp [heq], ?_,
              hall, hlen⟩
            rw [cdcAllLines_cons_none CdcPoll.noData pre rfl]
            exact hne
        · rintro (⟨hresp, mid, rest, heq, hall, hlen⟩ |
            ⟨pre, mid, rest, heq, hne, hall, hlen⟩)
          · left
            have hlt := hinv hresp
            cases mid with
            | nil =>
              exfalso
              simp only [List.countP_nil, MAX_IDLE_POLLS] at hlen hlt
              omega
            | cons m mtl =>
              rw [List.cons_append] at heq
              injection heq with h1 h2
              subst h1
              refine ⟨hresp, mtl, rest, h2,
                fun q hq => hall q (List.mem_cons_of_mem _ hq), ?_⟩
              rw [List.countP_cons] at hlen
              simp only [MAX_IDLE_POLLS] at *
              simp at hlen
              omega
          · cases pre with
            | nil =>
              left
              simp only [List.nil_append] at heq
              rw [cdcAllLines_nil, List.append_nil] at hne
              cases mid with
              | nil =>
                exfalso
                simp [MAX_IDLE_POLLS] at hlen
              | cons m mtl =>
                rw [List.cons_append] at heq
                injection heq with h1 h2
                subst h1
                have hlt := hinv2 hne
                rw [List.countP_cons] at hlen
                simp at hlen
                obtain ⟨l1, l2, hsplit, hcnt⟩ := exists_prefix_countP
                  (fun p => decide (p = CdcPoll.noData)) mtl
                  (MAX_IDLE_POLLS - (idle + 1))
                  (by simp only [MAX_IDLE_POLLS] at *; omega)
                refine ⟨hne, l1, l2 ++ rest, ?_, ?_, hcnt⟩
                · rw [h2, hsplit, List.append_assoc]
                · intro q hq
                  exact hall q (List.mem_cons_of_mem _
                    (hsplit ▸ List.mem_append_left _ hq))
            | cons q pre2 =>
              right
              rw [List.cons_append, List.cons_append] at heq
              injection heq with h1 h2
              subst h1
              refine ⟨pre2, mid, rest, h2, ?_, hall, hlen⟩
              rw [cdcAllLines_cons_none CdcPoll.noData pre2 rfl] at hne
              exact hne
    | line raw =>
      simp only [cdcRun]
      by_cases hc : pyStrip (utf8DecodeIgnore raw) ≠ [] ∧
          pyStrip (utf8DecodeIgnore raw) ≠ [62]
      · rw [if_pos hc]
        have hclo : cdcLineOf (CdcPoll.line raw) =
            some (pyStrip (utf8DecodeIgnore raw)) := by
          simp only [cdcLineOf]
          rw [if_pos hc]
        rw [ih (resp ++ [pyStrip (utf8DecodeIgnore raw)]) 0
          (fun _ => by simp [MAX_IDLE_POLLS])]
        constructor
        · rintro (⟨hresp, mid, rest, heq, hall, hlen⟩ |
            ⟨pre, mid, rest, heq, hne, hall, hlen⟩)
          · right
            refine ⟨[CdcPoll.line raw], mid, rest, by simp [heq], ?_, hall,
              by simpa using hlen⟩
            rw [cdcAllLines_cons_some _ _ _ hclo, cdcAllLines_nil]
            simp
          · right
            refine ⟨CdcPoll.line raw :: pre, mid, rest, by simp [heq], ?_,
              hall, hlen⟩
            rw [cdcAllLines_cons_some _ _ _ hclo]
            simp
        · rintro (⟨hresp, mid, rest, heq, hall, hlen⟩ |
            ⟨pre, mid, rest, heq, hne, hall, hlen⟩)
          · exfalso
            have hlt := hinv hresp
            cases mid with
            | nil =>
              simp only [List.countP_nil, MAX_IDLE_POLLS] at hlen hlt
              omega
            | cons m mtl =>
              rw [List.cons_append] at heq
              injection heq with h1 h2
              have hm := hall m (List.mem_cons_self _ _)
              rw [← h1, hclo] at hm
              simp at hm
          · cases pre with
            | nil =>
              exfalso
              simp only [List.nil_append] at heq
              cases mid with
              | nil =>
                simp [MAX_IDLE_POLLS] at hlen
              | cons m mtl =>
                rw [List.cons_append] at heq
                injection heq with h1 h2
                have hm := hall m (List.mem_cons_self _ _)
                rw [← h1, hclo] at hm
                simp at hm
            | cons q pre2 =>
              right
              rw [List.cons_append, List.cons_append] at heq
              injection heq with h1 h2
              refine ⟨pre2, mid, rest, h2, ?_, hall, hlen⟩
              simp
      · rw [if_neg hc]
        have hclo : cdcLineOf (CdcPoll.line raw) = none := by
          simp only [cdcLineOf]
          rw [if_neg hc]
        rw [ih resp idle hinv]
        constructor
        · rintro (⟨hresp, mid, rest, heq, hall, hlen⟩ |
            ⟨pre, mid, rest, heq, hne, hall, hlen⟩)
          · left
            refine ⟨hresp, CdcPoll.line raw :: mid, rest, by simp [heq],
              ?_, ?_⟩
            · intro x hx
              rcases List.mem_cons.mp hx with h | h
              · subst h
                exact hclo
              · exact hall x h
            · rw [List.countP_cons]
              simp [hlen]
          · right
            refine ⟨CdcPoll.line raw :: pre, mid, rest, by simp [heq], ?_,
              hall, hlen⟩
            rw [cdcAllLines_cons_none _ _ hclo]
            exact hne
        · rintro (⟨hresp, mid, rest, heq, hall, hlen⟩ |
            ⟨pre, mid, rest, heq, hne, hall, hlen⟩)
          · left
            have hlt := hinv hresp
            cases mid with
            | nil =>
              exfalso
              simp only [List.countP_nil, MAX_IDLE_POLLS] at hlen hlt
              omega
            | cons m mtl =>
              rw [List.cons_append] at heq
              injection heq with h1 h2
              subst h1
              refine ⟨hresp, mtl, rest, h2,
                fun x hx => hall x (List.mem_cons_of_mem _ hx), ?_⟩
              rw [List.countP_cons] at hlen
              simp at hlen
              exact hlen
          · cases pre with
            | nil =>
              left
              simp only [List.nil_append] at heq
              rw [cdcAllLines_nil, List.append_nil] at hne
              cases mid with
              | nil =>
                exfalso
                simp [MAX_IDLE_POLLS] at hlen
              | cons m mtl =>
                rw [List.cons_append] at heq
                injection heq with h1 h2
                subst h1
                rw [List.countP_cons] at hlen
                simp at hlen
                have hlt := hinv hne
                obtain ⟨l1, l2, hsplit, hcnt⟩ := exists_prefix_countP
                  (fun p => decide (p = CdcPoll.noData)) mtl
                  (MAX_IDLE_POLLS - idle)
                  (by simp only [MAX_IDLE_POLLS] at *; omega)
                refine ⟨hne, l1, l2 ++ rest, ?_, ?_, hcnt⟩
                · rw [h2, hsplit, List.append_assoc]
                · intro x hx
                  exact hall x (List.mem_cons_of_mem _
                    (hsplit ▸ List.mem_append_left _ hx))
            | cons q pre2 =>
              right
              rw [List.cons_append, List.cons_append] at heq
              injection heq with h1 h2
              subst h1
              refine ⟨pre2, mid, rest, h2, ?_, hall, hlen⟩
              rw [cdcAllLines_cons_none _ _ hclo] at hne
              exact hne


/-- C2 (corrected).  For the HID collector, early exit happens exactly
when `MAX_IDLE_POLLS` consecutive polls returned no data after at least
one line was collected.  For the CDC collector the counter is reset only
by kept lines and left untouched by polls returning blank or bare-`>`
lines, so early exit happens exactly when a stretch with no kept line
contains `MAX_IDLE_POLLS` no-data polls after at least one collected
line — the no-data polls need not be consecutive.  In both loops, if
nothing was ever collected they never exit early, so data delivered just
before the timeout is still captured. -/
theorem collector_exit_condition (hpolls : List (List (List Nat)))
    (cpolls : List CdcPoll) :
    ((hidRun hpolls ([], 0)).2 = true ↔ HidEarly hpolls) ∧
    ((cdcRun cpolls ([], 0)).2 = true ↔ CdcEarly cpolls) ∧
    ((hidRun hpolls ([], 0)).1 = [] → (hidRun hpolls ([], 0)).2 = false) ∧
    ((cdcRun cpolls ([], 0)).1 = [] → (cdcRun cpolls ([], 0)).2 = false) := by
  refine ⟨?_, ?_, ?_, ?_⟩
  · rw [hidRun_early_iff hpolls [] 0 (fun h => absurd rfl h)]
    unfold HidEarly
    constructor
    · rintro (⟨hresp, _⟩ | ⟨pre, mid, rest, heq, hne, hall, hlen⟩)
      · exact absurd rfl hresp
      · exact ⟨pre, mid, rest, heq, by simpa using hne, hall, hlen⟩
    · rintro ⟨pre, mid, rest, heq, hne, hall, hlen⟩
      right
      exact ⟨pre, mid, rest, heq, by simpa using hne, hall, hlen⟩
  · rw [cdcRun_early_iff cpolls [] 0 (fun h => absurd rfl h)]
    unfold CdcEarly
    constructor
    · rintro (⟨hresp, _⟩ | ⟨pre, mid, rest, heq, hne, hall, hlen⟩)
      · exact absurd rfl hresp
      · exact ⟨pre, mid, rest, heq, by simpa using hne, hall, hlen⟩
    · rintro ⟨pre, mid, rest, heq, hne, hall, hlen⟩
      right
      exact ⟨pre, mid, rest, heq, by simpa using hne, hall, hlen⟩
  · intro h
    cases hb : (hidRun hpolls ([], 0)).2
    · rfl
    · exact absurd h (hidRun_true_ne hpolls [] 0 hb)
  · intro h
    cases hb : (cdcRun cpolls ([], 0)).2
    · rfl
    · exact absurd h (cdcRun_true_ne cpolls [] 0 hb)

/-- C2 witness: with only idle polls and nothing collected, the HID loop
runs to the timeout rather than exiting early. -/
theorem collector_exit_condition_witness :
    (hidRun [[], []] ([], 0)).2 = false :=
  (collector_exit_condition [[], []] []).2.2.1 (by decide)

/-- C2 counterexample: on `cePolls` the CDC collector exits early although
no run of `MAX_IDLE_POLLS` consecutive no-data polls (after a collected
line) exists anywhere in the sequence — the bare-`>` poll in the middle
interrupts consecutiveness without resetting the idle counter. -/
theorem collector_exit_counterexample :
    (cdcRun cePolls ([], 0)).2 = true ∧ ¬ CdcConsecutiveIdle cePolls := by
  constructor
  · decide
  · rintro ⟨pre, mid, rest, heq, hlines, hall, hlen⟩
    have h13 : cePolls.length = 13 := by decide
    have hmlen : mid.length = 10 := by
      simpa [MAX_IDLE_POLLS] using hlen
    have hplen : pre.length ≤ 3 := by
      have h := congrArg List.length heq
      simp only [h13, List.length_append, hmlen] at h
      omega
    rw [List.append_assoc] at heq
    have h6 : cePolls[6]? = some (CdcPoll.line [62]) := by decide
    rw [heq, List.getElem?_append_right (by omega)] at h6
    rw [List.getElem?_append_left (by omega)] at h6
    have hmem : CdcPoll.line [62] ∈ mid := List.getElem?_mem h6
    have := hall _ hmem
    simp at this


/-- A non-empty well-formed response list has a non-empty normalized set. -/
theorem normSet_ne_empty (r : List (List Nat))
    (hWF : ∀ l ∈ r, pyStrip l ≠ []) (hr : r ≠ []) : normSet r ≠ ∅ := by
  cases r with
  | nil => exact absurd rfl hr
  | cons a t =>
    refine Finset.ne_empty_of_mem (show pyStrip a ∈ normSet (a :: t) from ?_)
    unfold normSet
    rw [List.mem_toFinset, List.mem_filter]
    constructor
    · exact List.mem_map.mpr ⟨a, List.mem_cons_self _ _, rfl⟩
    · simpa using hWF a (List.mem_cons_self _ _)

/-- Under well-formedness, a channel is "active" (in the dict with a
truthy set) exactly when it was tested and returned a non-empty list. -/
theorem channelActive_iff (o : Option (List (List Nat))) (hWF : WFResp o) :
    channelActive o = true ↔ ∃ r, o = some r ∧ r ≠ [] := by
  cases o with
  | none => simp [channelActive, dictEntry]
  | some r =>
    by_cases hr : r = []
    · subst hr
      simp [channelActive, dictEntry]
    · have hde : dictEntry (some r) = some (normSet r) := by
        simp [dictEntry, hr]
      have hset := normSet_ne_empty r (hWF r rfl) hr
      simp only [channelActive, hde]
      constructor
      · intro _
        exact ⟨r, rfl, hr⟩
      · intro _
        simpa using hset

/-- The dict omits exactly the channels that were absent or empty. -/
theorem dictEntry_eq_none_iff (o : Option (List (List Nat))) :
    dictEntry o = none ↔ ∀ r, o = some r → r = [] := by
  cases o with
  | none => simp [dictEntry]
  | some r =>
    by_cases hr : r = []
    · subst hr
      simp [dictEntry]
    · simp [dictEntry, hr]

/-- C6.  For a general (non-SCPI) command, the verifier reports correct
routing exactly when the monitoring (CDC) channel collected a non-empty
response and every other available channel collected nothing; a non-empty
response on HID or BLE, or an empty/absent CDC response, makes it report
an anomaly instead. -/
theorem general_command_verification
    (cdc_resp hid_resp ble_resp : Option (List (List Nat))) (cmd : List Nat)
    (hcmd : is_scpi_command cmd = false)
    (hcdc : WFResp cdc_resp) (hhid : WFResp hid_resp)
    (hble : WFResp ble_resp) :
    (compare_responses cdc_resp hid_resp ble_resp cmd =
        CompareResult.generalCorrect ↔
      ((∃ r, cdc_resp = some r ∧ r ≠ []) ∧
        (∀ r, hid_resp = some r → r = []) ∧
        (∀ r, ble_resp = some r → r = []))) ∧
    ((∃ r, hid_resp = some r ∧ r ≠ []) ∨ (∃ r, ble_resp = some r ∧ r ≠ []) →
      isGeneralAnomaly (compare_responses cdc_resp hid_resp ble_resp cmd) =
        true) ∧
    ((∀ r, cdc_resp = some r → r = []) →
      isGeneralAnomaly (compare_responses cdc_resp hid_resp ble_resp cmd) =
        true) := by
  by_cases hA : ∃ r, cdc_resp = some r ∧ r ≠ []
  · obtain ⟨r, hreq, hr⟩ := hA
    subst hreq
    have hset := normSet_ne_empty r (hcdc r rfl) hr
    have hde : dictEntry (some r) = some (normSet r) := by
      simp [dictEntry, hr]
    simp only [compare_responses, hcmd, Bool.false_eq_true, if_false, hde]
    rw [if_pos hset]
    refine ⟨?_, ?_, ?_⟩
    · split_ifs with hcond
      · constructor
        · intro _
          refine ⟨⟨r, rfl, hr⟩, ?_, ?_⟩
          · intro r2 h2
            by_contra hne2
            have := (channelActive_iff hid_resp hhid).mpr ⟨r2, h2, hne2⟩
            rw [hcond.1] at this
            simp at this
          · intro r2 h2
            by_contra hne2
            have := (channelActive_iff ble_resp hble).mpr ⟨r2, h2, hne2⟩
            rw [hcond.2] at this
            simp at this
        · intro _
          rfl
      · constructor
        · intro h
          simp at h
        · rintro ⟨_, hHe, hBe⟩
          exfalso
          rcases not_and_or.mp hcond with hcf | hcb
          · have hcf2 : channelActive hid_resp = true := by
              cases hx : channelActive hid_resp
              · exact absurd hx hcf
              · rfl
            obtain ⟨r2, h2, hne2⟩ :=
              (channelActive_iff hid_resp hhid).mp hcf2
            exact hne2 (hHe r2 h2)
          · have hcb2 : channelActive ble_resp = true := by
              cases hx : channelActive ble_resp
              · exact absurd hx hcb
              · rfl
            obtain ⟨r2, h2, hne2⟩ :=
              (channelActive_iff ble_resp hble).mp hcb2
            exact hne2 (hBe r2 h2)
    · intro hOr
      have hcond : ¬(channelActive hid_resp = false ∧
          channelActive ble_resp = false) := by
        rcases hOr with h | h
        · intro hc
          have := (channelActive_iff hid_resp hhid).mpr h
          rw [hc.1] at this
          simp at this
        · intro hc
          have := (channelActive_iff ble_resp hble).mpr h
          rw [hc.2] at this
          simp at this
      rw [if_neg hcond]
      rfl
    · intro h
      exact absurd (h r rfl) hr
  · have hB : ∀ r, cdc_resp = some r → r = [] := by
      intro r h
      by_contra hne
      exact hA ⟨r, h, hne⟩
    have hde : dictEntry cdc_resp = none := (dictEntry_eq_none_iff _).mpr hB
    simp only [compare_responses, hcmd, Bool.false_eq_true, if_false, hde]
    refine ⟨?_, ?_, ?_⟩
    · constructor
      · intro h
        simp at h
      · rintro ⟨⟨r, hreq, hr⟩, _, _⟩
        exact absurd (hB r hreq) hr
    · intro _
      rfl
    · intro _
      rfl

/-- C6 witness: `HELP` with a CDC-only response is reported as correctly
routed. -/
theorem general_command_verification_witness :
    compare_responses (some [[79, 75]]) (some []) none [72, 69, 76, 80] =
      CompareResult.generalCorrect := by
  have h := (general_command_verification (some [[79, 75]]) (some []) none
    [72, 69, 76, 80] (by decide)
    (by intro r hr; injection hr with h2; subst h2; decide)
    (by intro r hr; injection hr with h2; subst h2; decide)
    (by intro r hr; cases hr)).1
  exact h.mpr ⟨⟨[[79, 75]], rfl, by decide⟩,
    (by intro r hr; injection hr with h2; exact h2.symm),
    (by intro r hr; cases hr)⟩


/-- C7.  For an SCPI command: when at least two available channels
returned a non-empty response, the verifier reports consistency exactly
when all the participating channels' normalized (trim plus dedupe-as-set)
responses are equal, and a mismatch whenever two of them differ; channels
that are absent or returned an empty response are excluded from the
content comparison entirely. -/
theorem scpi_cross_channel_comparison
    (cdc_resp hid_resp ble_resp : Option (List (List Nat))) (cmd : List Nat)
    (hcmd : is_scpi_command cmd = true) :
    (2 ≤ ([dictEntry cdc_resp, dictEntry hid_resp,
        dictEntry ble_resp].reduceOption).length →
      ((compare_responses cdc_resp hid_resp ble_resp cmd =
          CompareResult.scpiConsistent ↔
        ∀ s1 ∈ [dictEntry cdc_resp, dictEntry hid_resp,
            dictEntry ble_resp].reduceOption,
          ∀ s2 ∈ [dictEntry cdc_resp, dictEntry hid_resp,
            dictEntry ble_resp].reduceOption, s1 = s2) ∧
       ((∃ s1 ∈ [dictEntry cdc_resp, dictEntry hid_resp,
            dictEntry ble_resp].reduceOption,
          ∃ s2 ∈ [dictEntry cdc_resp, dictEntry hid_resp,
            dictEntry ble_resp].reduceOption, s1 ≠ s2) →
         compare_responses cdc_resp hid_resp ble_resp cmd =
           CompareResult.scpiMismatch))) ∧
    ((hid_resp = none ∨ hid_resp = some []) →
      compare_responses cdc_resp hid_resp ble_resp cmd =
        compare_responses cdc_resp none ble_resp cmd) ∧
    ((ble_resp = none ∨ ble_resp = some []) →
      compare_responses cdc_resp hid_resp ble_resp cmd =
        compare_responses cdc_resp hid_resp none cmd) ∧
    ((cdc_resp = none ∨ cdc_resp = some []) →
      compare_responses cdc_resp hid_resp ble_resp cmd =
        compare_responses none hid_resp ble_resp cmd) := by
  refine ⟨?_, ?_, ?_, ?_⟩
  · intro hlen2
    simp only [compare_responses, hcmd, if_true]
    rw [if_pos hlen2]
    generalize hE : [dictEntry cdc_resp, dictEntry hid_resp,
      dictEntry ble_resp].reduceOption = E
    rw [hE] at hlen2
    have hne : E ≠ [] := by
      intro h
      rw [h] at hlen2
      simp at hlen2
    have hmem : E.headI ∈ E := by
      cases E with
      | nil => exact absurd rfl hne
      | cons e es => exact List.mem_cons_self _ _
    split_ifs with hall
    · rw [List.all_eq_true] at hall
      constructor
      · constructor
        · intro _ s1 h1 s2 h2
          have e1 := hall s1 h1
          have e2 := hall s2 h2
          rw [decide_eq_true_eq] at e1 e2
          rw [e1, e2]
        · intro _
          rfl
      · rintro ⟨s1, h1, s2, h2, hdiff⟩
        exfalso
        have e1 := hall s1 h1
        have e2 := hall s2 h2
        rw [decide_eq_true_eq] at e1 e2
        exact hdiff (e1.trans e2.symm)
    · constructor
      · constructor
        · intro h
          simp at h
        · intro hpair
          exfalso
          apply hall
          rw [List.all_eq_true]
          intro s hs
          rw [decide_eq_true_eq]
          exact hpair s hs E.headI hmem
      · intro _
        rfl
  · intro h
    have hd : dictEntry hid_resp = dictEntry none := by
      rcases h with h | h <;> subst h <;> simp [dictEntry]
    simp only [compare_responses, hcmd, if_true, hd]
  · intro h
    have hd : dictEntry ble_resp = dictEntry none := by
      rcases h with h | h <;> subst h <;> simp [dictEntry]
    simp only [compare_responses, hcmd, if_true, hd]
  · intro h
    have hd : dictEntry cdc_resp = dictEntry none := by
      rcases h with h | h <;> subst h <;> simp [dictEntry]
    simp only [compare_responses, hcmd, if_true, hd]

/-- C7 witness: two channels with the identical response are reported
consistent for an SCPI command. -/
theorem scpi_cross_channel_comparison_witness :
    compare_responses (some [[79]]) (some [[79]]) none [42] =
      CompareResult.scpiConsistent := by
  have h := ((scpi_cross_channel_comparison (some [[79]]) (some [[79]]) none
    [42] (by decide)).1 (by decide)).1
  apply h.mpr
  decide

end CompositeDeviceTest
